import Mathlib

set_option maxHeartbeats 1000000

/-!
Verification development for the heads-up Texas Hold'em program in
`src/main.rs`: the card model, the hand evaluator `evaluate_hand`, the
comparator `compare_hands`, and the betting-round state machine
(`PokerGame`, `post_blinds`, `start_hand`, `player_action`, `next_phase`,
`do_showdown`).

Modelling conventions:
- Rust `i32` is modelled as `Int` (the program's chip and rank values stay
  far from the `i32` range, so wrap-around never occurs on the states the
  theorems quantify over); `i32` division (`pot / 2`) truncates toward
  zero and is modelled as `Int.tdiv`.
- `Vec::pop` removes from the end of the vector; since the deck is freshly
  shuffled (an arbitrary permutation), we model the deck as a list dealt
  from the head, with the shuffled order supplied as a parameter.
- `sort_by_key` is a stable sort; we model it by a stable insertion sort.
  `dedup_by_key` removes consecutive duplicate keys keeping the first.
- The `HashMap` of suit counts is only consumed through `values().max()`,
  and the `HashMap` of rank counts through key filters; both are modelled
  order-insensitively by list counting.
-/

def STARTING_CHIPS : Int := 1000
def SMALL_BLIND : Int := 10
def BIG_BLIND : Int := 20
def MIN_RAISE : Int := 20

structure Card where
  rank : String
  suit : String
  value : Int
deriving DecidableEq, Repr

inductive HandRank where
  | HighCard
  | Pair
  | TwoPair
  | ThreeOfAKind
  | Straight
  | Flush
  | FullHouse
  | FourOfAKind
  | StraightFlush
deriving DecidableEq, Repr

/-- The `as i32` discriminant of `HandRank`. -/
def rankVal : HandRank → Int
  | .HighCard => 0
  | .Pair => 1
  | .TwoPair => 2
  | .ThreeOfAKind => 3
  | .Straight => 4
  | .Flush => 5
  | .FullHouse => 6
  | .FourOfAKind => 7
  | .StraightFlush => 8

structure EvaluatedHand where
  rank : HandRank
  primary_value : Int
  secondary_values : List Int
  kickers : List Int
deriving DecidableEq, Repr

/-- Insert a `(value, suit)` pair into a list sorted by value, after all
entries with a smaller-or-equal value (this makes the fold below a stable
sort, matching `sort_by_key`). -/
def insertByValue (c : Int × String) : List (Int × String) → List (Int × String)
  | [] => [c]
  | d :: ds => if c.1 < d.1 then c :: d :: ds else d :: insertByValue c ds

/-- Stable sort by card value: model of `all_cards.sort_by_key(|a| a.0)`. -/
def sortByValue (l : List (Int × String)) : List (Int × String) :=
  l.foldl (fun acc c => insertByValue c acc) []

/-- Tail worker for `dedupByValue`: `c` is the currently kept entry of
the run being scanned. -/
def dedupFrom (c : Int × String) : List (Int × String) → List (Int × String)
  | [] => [c]
  | d :: rest => if c.1 = d.1 then dedupFrom c rest else c :: dedupFrom d rest

/-- Model of `all_cards.dedup_by_key(|a| a.0)`: drop consecutive entries
with a duplicated value, keeping the first of each run. -/
def dedupByValue : List (Int × String) → List (Int × String)
  | [] => []
  | c :: rest => dedupFrom c rest

/-- `suit_counts.values().max().copied().unwrap_or(0)`. -/
def maxSuitCount (suits : List String) : Nat :=
  (suits.map (fun s => suits.count s)).foldr Nat.max 0

/-- Tail worker for `isConsecRun`: `x` is the previous value. -/
def isConsecFrom (x : Int) : List Int → Bool
  | [] => true
  | y :: rest => decide (y - x = 1) && isConsecFrom y rest

/-- The inner window test: consecutive values with unit gaps. -/
def isConsecRun : List Int → Bool
  | [] => true
  | x :: rest => isConsecFrom x rest

/-- The window scan `for i in 0..=values.len() - 5`.  The window
`values[i..i + 5]` is already sorted (the list is sorted and deduped), so
the `sort_unstable` inside the loop is the identity and is omitted. -/
def hasRun (values : List Int) : Bool :=
  (List.range (values.length - 4)).any (fun i => isConsecRun ((values.drop i).take 5))

/-- The wheel special case: span of 12 from lowest to highest, an ace and
a two present, and all of `[2, 3, 4, 5, 14]` present. -/
def wheelHolds (values : List Int) : Bool :=
  decide (values.getLastD 0 - values.headD 0 = 12) &&
  values.contains 14 && values.contains 2 &&
  ([2, 3, 4, 5, 14].all (fun v => values.contains v))

/-- The straight-detection block: returns `(is_straight, straight_high)`
where `straight_high = values.iter().max().copied().unwrap_or(0)` when
`values.len() >= 5` and `0` otherwise. -/
def straightInfo (values : List Int) : Bool × Int :=
  if 5 ≤ values.length then
    let run := hasRun values
    let isS := if run then true else wheelHolds values
    (isS, (values.max?).getD 0)
  else
    (false, 0)

/-- Keys of the rank-count map having exactly the given count. -/
def valuesWithCount (values : List Int) (n : Nat) : List Int :=
  values.dedup.filter (fun v => values.count v == n)

def insertInt (x : Int) : List Int → List Int
  | [] => [x]
  | y :: ys => if x < y then x :: y :: ys else y :: insertInt x ys

def sortInts (l : List Int) : List Int :=
  l.foldl (fun acc x => insertInt x acc) []

/-- The prefix of `evaluate_hand`: collect `(value, suit)` pairs of all
cards, sort stably by value, dedup by value. -/
def allCardsOf (hole_cards community_cards : List Card) : List (Int × String) :=
  dedupByValue (sortByValue ((hole_cards ++ community_cards).map (fun c => (c.value, c.suit))))

/-- The body of `evaluate_hand` after `all_cards` has been computed. -/
def evalCore (all_cards : List (Int × String)) : EvaluatedHand :=
  let values : List Int := all_cards.map Prod.fst
  let suits : List String := all_cards.map Prod.snd
  let max_suit_count := maxSuitCount suits
  let is_flush : Bool := decide (5 ≤ max_suit_count)
  let st := straightInfo values
  let is_straight : Bool := st.1
  let straight_high : Int := st.2
  let four_of_kind := valuesWithCount values 4
  let three_of_kind := valuesWithCount values 3
  let pairs := valuesWithCount values 2
  let has_full_house : Bool := !three_of_kind.isEmpty && !pairs.isEmpty
  let has_three_of_kind : Bool := !three_of_kind.isEmpty
  let has_two_pair : Bool := decide (2 ≤ pairs.length)
  if is_flush && is_straight then
    ⟨HandRank.StraightFlush, straight_high, [], []⟩
  else if !four_of_kind.isEmpty then
    let four_val := four_of_kind.headD 0
    let kicker := ((values.filter (fun v => v != four_val)).max?).getD 0
    ⟨HandRank.FourOfAKind, four_val, [kicker], []⟩
  else if has_full_house then
    ⟨HandRank.FullHouse, three_of_kind.headD 0, [pairs.headD 0], []⟩
  else if is_flush then
    let sorted_flush := values.take 5
    let kickers := (values.filter (fun v => !sorted_flush.contains v)).take 2
    ⟨HandRank.Flush, (sorted_flush.max?).getD 0, sorted_flush.drop 1, kickers⟩
  else if is_straight then
    ⟨HandRank.Straight, straight_high, [], []⟩
  else if has_three_of_kind then
    let three_val := three_of_kind.headD 0
    ⟨HandRank.ThreeOfAKind, three_val, (values.filter (fun v => v != three_val)).take 2, []⟩
  else if has_two_pair then
    let sorted_pairs := (sortInts pairs).reverse
    let high_pair := sorted_pairs.headD 0
    let low_pair := sorted_pairs.getD 1 0
    let kicker := ((values.filter (fun v => !pairs.contains v)).max?).getD 0
    ⟨HandRank.TwoPair, high_pair, [low_pair, kicker], []⟩
  else if pairs.length == 1 then
    let pair_val := pairs.headD 0
    ⟨HandRank.Pair, pair_val, (values.filter (fun v => v != pair_val)).take 3, []⟩
  else
    let top_five := values.take 5
    ⟨HandRank.HighCard, (top_five.max?).getD 0, top_five.drop 1, []⟩

/-- Model of `evaluate_hand` from `src/main.rs` (lines 67-276).  Note the
source sorts and then **dedups by rank value** before computing both the
suit counts and the rank counts. -/
def evaluate_hand (hole_cards community_cards : List Card) : EvaluatedHand :=
  evalCore (allCardsOf hole_cards community_cards)

/-- The secondary-value loop of `compare_hands`: `zip` truncates at the
shorter list, and the first mismatching position decides. -/
def compareSecs : List Int → List Int → Int
  | x :: xs, y :: ys => if x ≠ y then x - y else compareSecs xs ys
  | _, _ => 0

/-- Model of `compare_hands` (lines 278-295). -/
def compare_hands (hand1 hand2 : EvaluatedHand) : Int :=
  if hand1.rank ≠ hand2.rank then rankVal hand1.rank - rankVal hand2.rank
  else if hand1.primary_value ≠ hand2.primary_value then
    hand1.primary_value - hand2.primary_value
  else compareSecs hand1.secondary_values hand2.secondary_values

structure Player where
  name : String
  chips : Int
  bet : Int
  cards : List Card
  is_user : Bool
  last_action : String
deriving DecidableEq, Repr

def Player.new (name : String) (is_user : Bool) : Player :=
  ⟨name, STARTING_CHIPS, 0, [], is_user, ""⟩

inductive GamePhase where
  | PreFlop
  | Flop
  | Turn
  | River
  | Showdown
deriving DecidableEq, Repr

structure PokerGame where
  deck : List Card
  community_cards : List Card
  players : List Player
  current_player : Nat
  phase : GamePhase
  pot : Int
  current_bet : Int
  dealer_position : Nat
  small_blind : Int
  big_blind : Int
  hand_complete : Bool
  showdown_done : Bool
  game_over : Bool
deriving DecidableEq, Repr

/-- `PokerGame::new()`. -/
def PokerGame.new : PokerGame :=
  ⟨[], [], [Player.new "You" true, Player.new "Bot" false], 0, GamePhase.PreFlop,
   0, 0, 0, SMALL_BLIND, BIG_BLIND, false, false, false⟩

def default_player : Player := ⟨"", 0, 0, [], false, ""⟩

def getPlayer (g : PokerGame) (i : Nat) : Player :=
  g.players.getD i default_player

/-- In-place mutation of `self.players[i]` (always in range on the states
the theorems quantify over; Rust panics out of range). -/
def updatePlayer (g : PokerGame) (i : Nat) (f : Player → Player) : PokerGame :=
  { g with players := g.players.set i (f (getPlayer g i)) }

/-- Model of `post_blinds` (lines 460-484). -/
def post_blinds (g : PokerGame) : PokerGame :=
  let sb := (g.dealer_position + 1) % g.players.length
  let bb := (g.dealer_position + 2) % g.players.length
  let g1 := updatePlayer g sb (fun p =>
    { p with bet := g.small_blind, chips := p.chips - g.small_blind,
             last_action := "SB: $" ++ toString g.small_blind })
  let g2 := updatePlayer g1 bb (fun p =>
    { p with bet := g.big_blind, chips := p.chips - g.big_blind,
             last_action := "BB: $" ++ toString g.big_blind })
  { g2 with current_bet := g.big_blind, pot := g2.pot + g.small_blind + g.big_blind }

/-- One `if let Some(card) = self.deal_card()` pushing onto player `i`'s
hole cards. -/
def deal_one_to (g : PokerGame) (i : Nat) : PokerGame :=
  match g.deck with
  | [] => g
  | c :: rest => updatePlayer { g with deck := rest } i (fun p => { p with cards := p.cards ++ [c] })

/-- Model of `deal_hole_cards`: two cards to each seat in order. -/
def deal_hole_cards (g : PokerGame) : PokerGame :=
  (List.range g.players.length).foldl (fun acc i => deal_one_to (deal_one_to acc i) i) g

/-- Model of `deal_community_cards` (an empty deck skips the push). -/
def deal_community_cards (g : PokerGame) : Nat → PokerGame
  | 0 => g
  | n + 1 =>
    match g.deck with
    | [] => deal_community_cards g n
    | c :: rest =>
      deal_community_cards { g with deck := rest, community_cards := g.community_cards ++ [c] } n

/-- Model of `start_hand` (lines 390-458): the freshly shuffled deck is
passed in as `shuffled` (the shuffle is the only randomness). -/
def start_hand (shuffled : List Card) (g : PokerGame) : PokerGame :=
  let g1 := { g with deck := shuffled, community_cards := [], pot := 0, current_bet := 0,
                     phase := GamePhase.PreFlop, hand_complete := false,
                     showdown_done := false, game_over := false,
                     players := g.players.map (fun p =>
                       { p with bet := 0, cards := [], last_action := "" }) }
  let g2 := deal_hole_cards (post_blinds g1)
  { g2 with current_player := (g2.dealer_position + 3) % g2.players.length }

/-- Model of `finish_phase_transition` (lines 545-561). -/
def finish_phase_transition (g : PokerGame) : PokerGame :=
  { g with current_bet := 0,
           players := g.players.map (fun p => { p with bet := 0 }),
           current_player := (g.dealer_position + 1) % g.players.length }

/-- Index of the first non-folded player, as produced by the
`enumerate().filter(...)` in `do_showdown`. -/
def firstActiveIdx (players : List Player) : Nat :=
  players.findIdx (fun p => !p.cards.isEmpty)

/-- Model of `do_showdown` (lines 831-913).  `i32` division truncates
toward zero, hence `Int.tdiv`. -/
def do_showdown (g : PokerGame) : PokerGame :=
  if g.showdown_done then g
  else
    let g1 := { g with showdown_done := true }
    let user := getPlayer g1 0
    let bot := getPlayer g1 1
    let active_count := (g1.players.filter (fun p => !p.cards.isEmpty)).length
    let g2 :=
      if active_count = 1 then
        { updatePlayer g1 (firstActiveIdx g1.players)
            (fun p => { p with chips := p.chips + g1.pot }) with game_over := true }
      else if active_count = 2 then
        let user_eval := evaluate_hand user.cards g1.community_cards
        let bot_eval := evaluate_hand bot.cards g1.community_cards
        let comparison := compare_hands user_eval bot_eval
        if comparison > 0 then
          updatePlayer g1 0 (fun p => { p with chips := p.chips + g1.pot })
        else if comparison < 0 then
          updatePlayer g1 1 (fun p => { p with chips := p.chips + g1.pot })
        else
          updatePlayer
            (updatePlayer g1 0 (fun p => { p with chips := p.chips + Int.tdiv g1.pot 2 }))
            1 (fun p => { p with chips := p.chips + Int.tdiv g1.pot 2 })
      else g1
    { g2 with hand_complete := true }

/-- Model of `next_phase` (lines 517-543).  Note the `River` arm runs the
showdown and returns without `finish_phase_transition`. -/
def next_phase (g : PokerGame) : PokerGame :=
  match g.phase with
  | GamePhase.PreFlop =>
    finish_phase_transition { deal_community_cards g 3 with phase := GamePhase.Flop }
  | GamePhase.Flop =>
    finish_phase_transition { deal_community_cards g 1 with phase := GamePhase.Turn }
  | GamePhase.Turn =>
    finish_phase_transition { deal_community_cards g 1 with phase := GamePhase.River }
  | GamePhase.River =>
    do_showdown { g with phase := GamePhase.Showdown }
  | GamePhase.Showdown => finish_phase_transition g

def get_next_player (g : PokerGame) : Nat :=
  (g.current_player + 1) % g.players.length

def move_to_next_player (g : PokerGame) : PokerGame :=
  { g with current_player := get_next_player g }

/-- Model of `all_players_matched`. -/
def all_players_matched (g : PokerGame) : Bool :=
  g.players.all (fun p => p.bet == g.current_bet || p.cards.isEmpty)

/-- Model of `player_action` (lines 587-654): returns the `bool` result
together with the (possibly unchanged) state. -/
def player_action (g : PokerGame) (action : String) (amount : Option Int) :
    Bool × PokerGame :=
  let cp := g.current_player
  let player := getPlayer g cp
  let bet_amount := amount.getD 0
  if action = "fold" then
    (true, move_to_next_player (updatePlayer g cp
      (fun p => { p with cards := [], last_action := "Folded" })))
  else if action = "check" then
    if player.bet ≥ g.current_bet then
      (true, move_to_next_player (updatePlayer g cp
        (fun p => { p with last_action := "Check" })))
    else (false, g)
  else if action = "bet" ∨ action = "raise" then
    let to_bet := max bet_amount (g.current_bet + MIN_RAISE)
    if player.chips ≥ to_bet then
      let call_part := max (g.current_bet - player.bet) 0
      let actual_bet := to_bet - call_part
      let g1 := updatePlayer g cp (fun p =>
        { p with chips := p.chips - call_part - actual_bet, bet := to_bet,
                 last_action := "$" ++ toString to_bet })
      (true, move_to_next_player { g1 with current_bet := to_bet, pot := g1.pot + to_bet })
    else (false, g)
  else if action = "call" then
    let call_amount := g.current_bet - player.bet
    if player.chips ≥ call_amount then
      let g1 := updatePlayer g cp (fun p =>
        { p with chips := p.chips - call_amount, bet := g.current_bet,
                 last_action := "Call: $" ++ toString call_amount })
      (true, move_to_next_player { g1 with pot := g1.pot + call_amount })
    else (false, g)
  else if action = "all-in" then
    let all_in := player.chips
    if all_in > 0 then
      let g1 := updatePlayer g cp (fun p =>
        { p with chips := 0, bet := p.bet + all_in,
                 last_action := "All-In: $" ++ toString all_in })
      let g2 := { g1 with pot := g1.pot + all_in }
      let g3 :=
        if (getPlayer g2 cp).bet > g2.current_bet then
          { g2 with current_bet := (getPlayer g2 cp).bet }
        else g2
      (true, move_to_next_player g3)
    else (false, g)
  else (false, g)

/-- Model of `check_phase_complete` (the sleep is pacing only). -/
def check_phase_complete (g : PokerGame) : PokerGame :=
  if all_players_matched g then next_phase g else g

/-- The four suit strings of `create_deck`. -/
def deck_suits : List String := ["♠", "♥", "♦", "♣"]

/-- A real card of the 52-card deck: rank value 2..14, one of the four
suits. -/
def validCard (c : Card) : Prop :=
  2 ≤ c.value ∧ c.value ≤ 14 ∧ c.suit ∈ deck_suits

/-- A legal 7-card evaluation input: seven pairwise-distinct real cards. -/
def validSeven (hole comm : List Card) : Prop :=
  (hole ++ comm).length = 7 ∧
  ((hole ++ comm).map (fun c => (c.value, c.suit))).Nodup ∧
  ∀ c ∈ hole ++ comm, validCard c

/-- Shape invariant satisfied by every hand `evaluate_hand` produces from
a legal 7-card input: the secondary values are strictly increasing, they
are empty exactly for the straight categories, and when non-empty their
last entry is the primary value. -/
def HandOK (h : EvaluatedHand) : Prop :=
  h.secondary_values.Pairwise (· < ·) ∧
  (h.secondary_values = [] ↔
    (h.rank = HandRank.Straight ∨ h.rank = HandRank.StraightFlush)) ∧
  (h.secondary_values ≠ [] → h.secondary_values.getLast? = some h.primary_value)

/-- Reachable states of a hand before payout: a hand started (with some
shuffled deck) from a two-player table whose stacks carry the full
`2 * STARTING_CHIPS` (as at program start), followed by any sequence of
successful `player_action`s and of pre-river phase advances triggered by
`check_phase_complete`. -/
inductive Reach : PokerGame → Prop where
  | start (g0 : PokerGame) (d : List Card) (a b : Player) :
      g0.players = [a, b] → a.chips + b.chips = 2 * STARTING_CHIPS →
      g0.small_blind = SMALL_BLIND → g0.big_blind = BIG_BLIND →
      Reach (start_hand d g0)
  | act (g g' : PokerGame) (a : String) (amt : Option Int) :
      Reach g → player_action g a amt = (true, g') → Reach g'
  | advance (g : PokerGame) :
      Reach g → all_players_matched g = true →
      g.phase ≠ GamePhase.River → g.phase ≠ GamePhase.Showdown →
      Reach (next_phase g)

/-- A card with the given rank value and suit (the display rank string
plays no role in evaluation or comparison). -/
def mkCard (value : Int) (suit : String) : Card :=
  ⟨"", suit, value⟩

/-- Player 0's hole cards in the spec's showdown scenario: A♠ A♥. -/
def c1_hole0 : List Card := [mkCard 14 "♠", mkCard 14 "♥"]

/-- Player 1's hole cards in the spec's showdown scenario: K♠ K♥. -/
def c1_hole1 : List Card := [mkCard 13 "♠", mkCard 13 "♥"]

/-- The board of the spec's showdown scenario: 2♣ 7♦ 9♠ J♥ 3♣. -/
def c1_board : List Card :=
  [mkCard 2 "♣", mkCard 7 "♦", mkCard 9 "♠", mkCard 11 "♥", mkCard 3 "♣"]

/-- The showdown state of the spec's scenario: both players still in,
pot 100, stacks 500 and 400. -/
def c1_game : PokerGame :=
  ⟨[], c1_board,
   [⟨"You", 500, 0, c1_hole0, true, ""⟩, ⟨"Bot", 400, 0, c1_hole1, false, ""⟩],
   0, GamePhase.Showdown, 100, 0, 0, SMALL_BLIND, BIG_BLIND, false, false, false⟩

/-- Pre-flop heads-up state: the small blind (seat 0) has bet 10 with 990
chips behind; the big blind (seat 1) has bet 20 with 980 behind;
`current_bet` 20, pot 30. -/
def c4_game : PokerGame :=
  ⟨[], [], [⟨"You", 990, 10, [mkCard 2 "♠", mkCard 3 "♠"], true, ""⟩,
            ⟨"Bot", 980, 20, [mkCard 4 "♠", mkCard 5 "♠"], false, ""⟩],
   0, GamePhase.PreFlop, 30, 20, 1, SMALL_BLIND, BIG_BLIND, false, false, false⟩

/-- As `c4_game` but the small blind has only 35 chips behind: enough for
the 30-chip increment to a 40 bet, not for the full 40. -/
def c4_poor_game : PokerGame :=
  ⟨[], [], [⟨"You", 35, 10, [mkCard 2 "♠", mkCard 3 "♠"], true, ""⟩,
            ⟨"Bot", 980, 20, [mkCard 4 "♠", mkCard 5 "♠"], false, ""⟩],
   0, GamePhase.PreFlop, 30, 20, 1, SMALL_BLIND, BIG_BLIND, false, false, false⟩

/-- A flop state for the check-check scenario: both bets 0, `current_bet`
0, seat 0 to act, dealer seat 1, one card left in the deck. -/
def c5_game : PokerGame :=
  ⟨[mkCard 8 "♦"], [mkCard 2 "♣", mkCard 7 "♦", mkCard 9 "♠"],
   [⟨"You", 900, 0, [mkCard 14 "♠", mkCard 14 "♥"], true, ""⟩,
    ⟨"Bot", 900, 0, [mkCard 13 "♠", mkCard 13 "♥"], false, ""⟩],
   0, GamePhase.Flop, 200, 0, 1, SMALL_BLIND, BIG_BLIND, false, false, false⟩

/-- A state where the current player cannot cover the call: 5 chips
against a 20-chip `current_bet` with nothing yet bet. -/
def c6_game : PokerGame :=
  ⟨[], [], [⟨"You", 5, 0, [mkCard 2 "♠", mkCard 3 "♠"], true, ""⟩,
            ⟨"Bot", 980, 20, [mkCard 4 "♠", mkCard 5 "♠"], false, ""⟩],
   0, GamePhase.PreFlop, 25, 20, 1, SMALL_BLIND, BIG_BLIND, false, false, false⟩

/-- A showdown state with identical hole cards by value (a guaranteed
tie) and an odd pot of 101. -/
def c10_game : PokerGame :=
  ⟨[], [mkCard 2 "♣", mkCard 7 "♦", mkCard 9 "♠", mkCard 11 "♥", mkCard 3 "♣"],
   [⟨"You", 500, 0, [mkCard 14 "♠", mkCard 13 "♠"], true, ""⟩,
    ⟨"Bot", 400, 0, [mkCard 14 "♥", mkCard 13 "♥"], false, ""⟩],
   0, GamePhase.Showdown, 101, 0, 0, SMALL_BLIND, BIG_BLIND, false, false, false⟩

theorem dcc_players : ∀ (n : Nat) (g : PokerGame),
    (deal_community_cards g n).players = g.players := by
  intro n
  induction n with
  | zero => intro g; rfl
  | succ m ih =>
    intro g
    simp only [deal_community_cards]
    cases g.deck with
    | nil => exact ih g
    | cons c rest => exact ih _

theorem dcc_pot : ∀ (n : Nat) (g : PokerGame),
    (deal_community_cards g n).pot = g.pot := by
  intro n
  induction n with
  | zero => intro g; rfl
  | succ m ih =>
    intro g
    simp only [deal_community_cards]
    cases g.deck with
    | nil => exact ih g
    | cons c rest => exact ih _

theorem dcc_current_bet : ∀ (n : Nat) (g : PokerGame),
    (deal_community_cards g n).current_bet = g.current_bet := by
  intro n
  induction n with
  | zero => intro g; rfl
  | succ m ih =>
    intro g
    simp only [deal_community_cards]
    cases g.deck with
    | nil => exact ih g
    | cons c rest => exact ih _

theorem dcc_dealer : ∀ (n : Nat) (g : PokerGame),
    (deal_community_cards g n).dealer_position = g.dealer_position := by
  intro n
  induction n with
  | zero => intro g; rfl
  | succ m ih =>
    intro g
    simp only [deal_community_cards]
    cases g.deck with
    | nil => exact ih g
    | cons c rest => exact ih _

theorem dcc_comm_len : ∀ (n : Nat) (g : PokerGame), n ≤ g.deck.length →
    (deal_community_cards g n).community_cards.length = g.community_cards.length + n := by
  intro n
  induction n with
  | zero => intro g _; rfl
  | succ m ih =>
    intro g h
    simp only [deal_community_cards]
    cases hd : g.deck with
    | nil => rw [hd] at h; simp at h
    | cons c rest =>
      have h' : m ≤ rest.length := by rw [hd] at h; simpa using h
      show (deal_community_cards
          { g with deck := rest, community_cards := g.community_cards ++ [c] }
          m).community_cards.length = g.community_cards.length + (m + 1)
      rw [ih _ h']
      simp
      omega

theorem player_action_check (g : PokerGame)
    (h : (getPlayer g g.current_player).bet ≥ g.current_bet) :
    player_action g "check" none =
      (true, move_to_next_player (updatePlayer g g.current_player
        (fun p => { p with last_action := "Check" }))) := by
  simp only [player_action]
  rw [if_neg (show ¬("check" = "fold") by decide), if_pos trivial, if_pos h]

/-- C1: in the spec's showdown scenario (player 0 holds A♠ A♥, player 1
holds K♠ K♥, board 2♣ 7♦ 9♠ J♥ 3♣) the code classifies **both** seven-card
hands as HighCard with primary 11 and secondaries [3, 7, 9, 11] — the
rank dedup runs before the occurrence counts, so the pairs of aces and of
kings are invisible — `compare_hands` ties, and `do_showdown` splits the
pot instead of awarding it to player 0. -/
theorem C1_showdown_scenario_code_result :
    (evaluate_hand c1_hole0 c1_board).rank = HandRank.HighCard ∧
    (evaluate_hand c1_hole0 c1_board).primary_value = 11 ∧
    (evaluate_hand c1_hole0 c1_board).secondary_values = [3, 7, 9, 11] ∧
    (evaluate_hand c1_hole1 c1_board).rank = HandRank.HighCard ∧
    compare_hands (evaluate_hand c1_hole0 c1_board) (evaluate_hand c1_hole1 c1_board) = 0 ∧
    (getPlayer (do_showdown c1_game) 0).chips = 550 ∧
    (getPlayer (do_showdown c1_game) 1).chips = 450 := by
  decide

/-- C2: the wheel 2-3-4-5-A (mixed suits) is detected as a straight, but
its primary value is `values.iter().max()` = 14, the ace, not 5 as the
spec requires. -/
theorem C2_wheel_straight_primary_is_ace :
    evaluate_hand [mkCard 2 "♠", mkCard 3 "♥"] [mkCard 4 "♦", mkCard 5 "♣", mkCard 14 "♠"]
      = ⟨HandRank.Straight, 14, [], []⟩ := by
  decide

/-- C3: with five hearts on the table (9♥ 2♥ 5♥ J♥ K♥ against hole cards
9♠ 3♦) the rank dedup drops 9♥ (9♠ sorts first), so only four hearts are
counted and no flush is found; and where a flush is found (hearts
4 6 8 J K plus 2♠) the primary value is the fifth-lowest rank of all
cards (11), not the highest heart (13), with secondaries ascending from
the bottom instead of the next four flush ranks descending. -/
theorem C3_flush_detection_and_values_diverge :
    (evaluate_hand [mkCard 9 "♠", mkCard 3 "♦"]
        [mkCard 9 "♥", mkCard 2 "♥", mkCard 5 "♥", mkCard 11 "♥", mkCard 13 "♥"]).rank
      = HandRank.HighCard ∧
    evaluate_hand [mkCard 4 "♥", mkCard 6 "♥"]
        [mkCard 8 "♥", mkCard 11 "♥", mkCard 13 "♥", mkCard 2 "♠"]
      = ⟨HandRank.Flush, 11, [4, 6, 8, 11], [13]⟩ := by
  decide

/-- C4: raising to 40 from a seat that already has 10 in (small blind,
`current_bet` 20) moves the **full target** 40 out of the stack and into
the pot (990 → 950, pot 30 → 70), not the incremental 30 the spec
describes; and the legality test is `chips >= 40`, not `chips >= 30`, so
a stack of 35 — enough for the increment — is rejected. -/
theorem C4_raise_charges_full_target :
    player_action c4_game "raise" (some 40)
      = (true, { c4_game with
                   players := [⟨"You", 950, 40, [mkCard 2 "♠", mkCard 3 "♠"], true, "$40"⟩,
                               ⟨"Bot", 980, 20, [mkCard 4 "♠", mkCard 5 "♠"], false, ""⟩],
                   current_player := 1, pot := 70, current_bet := 40 }) ∧
    (950 : Int) = 990 - 40 ∧ (950 : Int) ≠ 990 - (40 - 10) ∧
    player_action c4_poor_game "raise" (some 40) = (false, c4_poor_game) ∧
    (35 : Int) ≥ 40 - 10 := by
  decide

/-- C5: on a flop with `current_bet` 0 and both bets 0, the two checks
succeed, after them `all_players_matched` holds, and the resulting
`next_phase` lands in Turn having dealt exactly one community card, with
both bets and `current_bet` reset to 0 and the player after the dealer to
act; and in general a phase advance out of PreFlop/Flop/Turn deals 3/1/1
community cards, zeroes every bet and `current_bet`, and hands the turn
to the player after the dealer. -/
theorem C5_checks_advance_flop_to_turn :
    (∀ (g : PokerGame) (a b : Player), g.players = [a, b] →
      g.phase = GamePhase.Flop → g.current_bet = 0 → a.bet = 0 → b.bet = 0 →
      g.current_player = 0 → g.deck ≠ [] →
      ∃ g1 g2, player_action g "check" none = (true, g1) ∧
        player_action g1 "check" none = (true, g2) ∧
        all_players_matched g2 = true ∧
        (next_phase g2).phase = GamePhase.Turn ∧
        (next_phase g2).community_cards.length = g.community_cards.length + 1 ∧
        (∀ p ∈ (next_phase g2).players, p.bet = 0) ∧
        (next_phase g2).current_bet = 0 ∧
        (next_phase g2).current_player = (g.dealer_position + 1) % 2) ∧
    (∀ g : PokerGame, g.phase = GamePhase.PreFlop → 3 ≤ g.deck.length →
      (next_phase g).phase = GamePhase.Flop ∧
      (next_phase g).community_cards.length = g.community_cards.length + 3 ∧
      (∀ p ∈ (next_phase g).players, p.bet = 0) ∧ (next_phase g).current_bet = 0 ∧
      (next_phase g).current_player = (g.dealer_position + 1) % g.players.length) ∧
    (∀ g : PokerGame, g.phase = GamePhase.Flop → 1 ≤ g.deck.length →
      (next_phase g).phase = GamePhase.Turn ∧
      (next_phase g).community_cards.length = g.community_cards.length + 1 ∧
      (∀ p ∈ (next_phase g).players, p.bet = 0) ∧ (next_phase g).current_bet = 0 ∧
      (next_phase g).current_player = (g.dealer_position + 1) % g.players.length) ∧
    (∀ g : PokerGame, g.phase = GamePhase.Turn → 1 ≤ g.deck.length →
      (next_phase g).phase = GamePhase.River ∧
      (next_phase g).community_cards.length = g.community_cards.length + 1 ∧
      (∀ p ∈ (next_phase g).players, p.bet = 0) ∧ (next_phase g).current_bet = 0 ∧
      (next_phase g).current_player = (g.dealer_position + 1) % g.players.length) := by
  have hgen : ∀ (g' : PokerGame) (ph : GamePhase) (n : Nat), n ≤ g'.deck.length →
      (finish_phase_transition { deal_community_cards g' n with phase := ph }).phase = ph ∧
      (finish_phase_transition { deal_community_cards g' n with phase := ph }).community_cards.length
        = g'.community_cards.length + n ∧
      (∀ p ∈ (finish_phase_transition { deal_community_cards g' n with phase := ph }).players, p.bet = 0) ∧
      (finish_phase_transition { deal_community_cards g' n with phase := ph }).current_bet = 0 ∧
      (finish_phase_transition { deal_community_cards g' n with phase := ph }).current_player
        = (g'.dealer_position + 1) % g'.players.length := by
    intro g' ph n hn
    refine ⟨rfl, ?_, ?_, rfl, ?_⟩
    · simp only [finish_phase_transition]
      exact dcc_comm_len n g' hn
    · intro p hp
      simp only [finish_phase_transition, List.mem_map] at hp
      obtain ⟨q, hq, rfl⟩ := hp
      rfl
    · simp only [finish_phase_transition, dcc_players, dcc_dealer, List.length_map]
  refine ⟨?_, ?_, ?_, ?_⟩
  · intro g a b hp hph hcb ha hb hcp hdk
    have h1 : player_action g "check" none =
        (true, move_to_next_player (updatePlayer g g.current_player
          (fun p => { p with last_action := "Check" }))) := by
      apply player_action_check
      rw [hcp]
      simp [getPlayer, hp, ha, hcb]
    set g1 := move_to_next_player (updatePlayer g g.current_player
          (fun p => { p with last_action := "Check" })) with hg1
    have hg1fields : g1.players = [{ a with last_action := "Check" }, b] ∧
        g1.current_player = 1 ∧ g1.current_bet = 0 ∧ g1.phase = GamePhase.Flop ∧
        g1.deck = g.deck ∧ g1.community_cards = g.community_cards ∧
        g1.dealer_position = g.dealer_position := by
      simp [hg1, move_to_next_player, updatePlayer, get_next_player, getPlayer, hp, hcp, hcb, hph]
    obtain ⟨hg1p, hg1cp, hg1cb, hg1ph, hg1dk, hg1cc, hg1dl⟩ := hg1fields
    have h2 : player_action g1 "check" none =
        (true, move_to_next_player (updatePlayer g1 g1.current_player
          (fun p => { p with last_action := "Check" }))) := by
      apply player_action_check
      rw [hg1cp]
      simp [getPlayer, hg1p, hb, hg1cb]
    set g2 := move_to_next_player (updatePlayer g1 g1.current_player
          (fun p => { p with last_action := "Check" })) with hg2
    have hg2fields : g2.players
          = [{ a with last_action := "Check" }, { b with last_action := "Check" }] ∧
        g2.current_player = 0 ∧ g2.current_bet = 0 ∧ g2.phase = GamePhase.Flop ∧
        g2.deck = g.deck ∧ g2.community_cards = g.community_cards ∧
        g2.dealer_position = g.dealer_position := by
      simp [hg2, move_to_next_player, updatePlayer, get_next_player, getPlayer,
        hg1p, hg1cp, hg1cb, hg1ph, hg1dk, hg1cc, hg1dl]
    obtain ⟨hg2p, hg2cp, hg2cb, hg2ph, hg2dk, hg2cc, hg2dl⟩ := hg2fields
    refine ⟨_, _, h1, h2, ?_, ?_⟩
    · simp [all_players_matched, hg2p, hg2cb, ha, hb]
    · have hnp : next_phase g2 =
          finish_phase_transition { deal_community_cards g2 1 with phase := GamePhase.Turn } := by
        simp only [next_phase, hg2ph]
      have hlen : 1 ≤ g2.deck.length := by
        rw [hg2dk]
        cases hh : g.deck with
        | nil => exact absurd hh hdk
        | cons x xs => simp
      have hind := hgen g2 GamePhase.Turn 1 hlen
      rw [← hnp] at hind
      obtain ⟨t1, t2, t3, t4, t5⟩ := hind
      exact ⟨t1, by rw [t2, hg2cc], t3, t4, by rw [t5, hg2dl, hg2p]; rfl⟩
  · intro g hph hlen
    have hnp : next_phase g =
        finish_phase_transition { deal_community_cards g 3 with phase := GamePhase.Flop } := by
      simp only [next_phase, hph]
    rw [hnp]
    exact hgen g GamePhase.Flop 3 hlen
  · intro g hph hlen
    have hnp : next_phase g =
        finish_phase_transition { deal_community_cards g 1 with phase := GamePhase.Turn } := by
      simp only [next_phase, hph]
    rw [hnp]
    exact hgen g GamePhase.Turn 1 hlen
  · intro g hph hlen
    have hnp : next_phase g =
        finish_phase_transition { deal_community_cards g 1 with phase := GamePhase.River } := by
      simp only [next_phase, hph]
    rw [hnp]
    exact hgen g GamePhase.River 1 hlen

/-- Witness for C5 at the concrete flop state `c5_game`. -/
theorem C5_checks_advance_witness :
    ∃ g1 g2, player_action c5_game "check" none = (true, g1) ∧
      player_action g1 "check" none = (true, g2) ∧
      all_players_matched g2 = true ∧
      (next_phase g2).phase = GamePhase.Turn ∧
      (next_phase g2).community_cards.length = c5_game.community_cards.length + 1 ∧
      (∀ p ∈ (next_phase g2).players, p.bet = 0) ∧
      (next_phase g2).current_bet = 0 ∧
      (next_phase g2).current_player = (c5_game.dealer_position + 1) % 2 :=
  C5_checks_advance_flop_to_turn.1 c5_game
    ⟨"You", 900, 0, [mkCard 14 "♠", mkCard 14 "♥"], true, ""⟩
    ⟨"Bot", 900, 0, [mkCard 13 "♠", mkCard 13 "♥"], false, ""⟩
    rfl rfl rfl rfl rfl rfl (by decide)

/-- C6: when the current player's chips do not cover
`current_bet - player.bet`, `call` fails and returns the state untouched;
and more generally every failing `player_action` returns the input state
unchanged. -/
theorem C6_failed_action_leaves_state_unchanged :
    (∀ (g : PokerGame) (amt : Option Int),
      (getPlayer g g.current_player).chips <
        g.current_bet - (getPlayer g g.current_player).bet →
      player_action g "call" amt = (false, g)) ∧
    (∀ (g : PokerGame) (a : String) (amt : Option Int) (g' : PokerGame),
      player_action g a amt = (false, g') → g' = g) := by
  constructor
  · intro g amt h
    simp only [player_action]
    split_ifs with h1 h2 h3 h4 h5 <;> first | rfl | omega | simp_all
  · intro g a amt g' h
    simp only [player_action] at h
    split_ifs at h <;> simp_all

/-- Witness for C6 at the concrete state `c6_game` (5 chips against a
20-chip call). -/
theorem C6_failed_call_witness :
    player_action c6_game "call" none = (false, c6_game) :=
  C6_failed_action_leaves_state_unchanged.1 c6_game none (by decide)

/-- C10: a two-player showdown tie credits each player exactly
`pot.tdiv 2`; the total paid out never exceeds the pot, and an odd pot
pays out exactly `pot - 1`, the remainder chip going to neither player. -/
theorem C10_tie_splits_pot_flooring :
    ∀ (g : PokerGame) (p0 p1 : Player), g.players = [p0, p1] →
      g.showdown_done = false → p0.cards ≠ [] → p1.cards ≠ [] →
      compare_hands (evaluate_hand p0.cards g.community_cards)
        (evaluate_hand p1.cards g.community_cards) = 0 →
      0 ≤ g.pot →
      (getPlayer (do_showdown g) 0).chips = p0.chips + Int.tdiv g.pot 2 ∧
      (getPlayer (do_showdown g) 1).chips = p1.chips + Int.tdiv g.pot 2 ∧
      (getPlayer (do_showdown g) 0).chips + (getPlayer (do_showdown g) 1).chips
        ≤ p0.chips + p1.chips + g.pot ∧
      (g.pot % 2 = 1 →
        (getPlayer (do_showdown g) 0).chips + (getPlayer (do_showdown g) 1).chips
          = p0.chips + p1.chips + g.pot - 1) := by
  intro g p0 p1 hp hsd h0 h1 hcmp hpot
  have e0 : p0.cards.isEmpty = false := by simpa using h0
  have e1 : p1.cards.isEmpty = false := by simpa using h1
  have hres : do_showdown g =
      { g with showdown_done := true, hand_complete := true,
               players := [{ p0 with chips := p0.chips + Int.tdiv g.pot 2 },
                           { p1 with chips := p1.chips + Int.tdiv g.pot 2 }] } := by
    simp only [do_showdown, hsd, getPlayer, hp, updatePlayer, firstActiveIdx]
    simp [e0, e1, hcmp, List.filter]
  rw [hres]
  have htd : Int.tdiv g.pot 2 = g.pot / 2 := Int.tdiv_eq_ediv hpot (by omega)
  simp only [getPlayer, List.getD_cons_zero, List.getD_cons_succ]
  refine ⟨trivial, trivial, ?_, ?_⟩ <;> rw [htd] <;> omega

/-- Witness for C10 at `c10_game`: an odd pot of 101 and value-identical
hole cards; each side receives 50 and one chip vanishes. -/
theorem C10_tie_split_witness :
    (getPlayer (do_showdown c10_game) 0).chips + (getPlayer (do_showdown c10_game) 1).chips
      = 500 + 400 + c10_game.pot - 1 :=
  (C10_tie_splits_pot_flooring c10_game
      ⟨"You", 500, 0, [mkCard 14 "♠", mkCard 13 "♠"], true, ""⟩
      ⟨"Bot", 400, 0, [mkCard 14 "♥", mkCard 13 "♥"], false, ""⟩
      rfl rfl (by decide) (by decide) (by decide) (by decide)).2.2.2 (by decide)

theorem insertByValue_length (c : Int × String) :
    ∀ l, (insertByValue c l).length = l.length + 1 := by
  intro l
  induction l with
  | nil => rfl
  | cons d ds ih =>
    simp only [insertByValue]
    split
    · simp
    · simp [ih]

theorem sortByValue_length (l : List (Int × String)) :
    (sortByValue l).length = l.length := by
  suffices h : ∀ acc, (l.foldl (fun acc c => insertByValue c acc) acc).length
      = acc.length + l.length by
    simpa using h []
  induction l with
  | nil => intro acc; simp
  | cons c cs ih =>
    intro acc
    simp only [List.foldl_cons]
    rw [ih, insertByValue_length]
    simp only [List.length_cons]
    omega

theorem dedupFrom_length_le (c : Int × String) :
    ∀ rest, (dedupFrom c rest).length ≤ rest.length + 1 := by
  intro rest
  induction rest generalizing c with
  | nil => simp [dedupFrom]
  | cons d ds ih =>
    simp only [dedupFrom]
    split
    · exact le_trans (ih c) (by simp)
    · simpa using ih d

theorem dedupByValue_length_le (l : List (Int × String)) :
    (dedupByValue l).length ≤ l.length := by
  cases l with
  | nil => simp [dedupByValue]
  | cons c rest => simpa [dedupByValue] using dedupFrom_length_le c rest

theorem foldr_max_le {l : List Nat} {n b : Nat} (h : ∀ x ∈ l, x ≤ n) (hb : b ≤ n) :
    l.foldr Nat.max b ≤ n := by
  induction l with
  | nil => simpa using hb
  | cons x xs ih =>
    simp only [List.foldr_cons]
    have hx : x ≤ n := h x (by simp)
    have hxs : xs.foldr Nat.max b ≤ n := ih (fun y hy => h y (by simp [hy]))
    exact Nat.max_le.2 ⟨hx, hxs⟩

theorem maxSuitCount_le (suits : List String) : maxSuitCount suits ≤ suits.length := by
  apply foldr_max_le
  · intro x hx
    obtain ⟨s, _, rfl⟩ := List.mem_map.1 hx
    exact List.count_le_length s suits
  · exact Nat.zero_le _

theorem straightInfo_short {values : List Int} (h : values.length < 5) :
    straightInfo values = (false, 0) := by
  simp only [straightInfo]
  rw [if_neg (by omega)]

theorem insertByValue_chain (c : Int × String) :
    ∀ l, List.Chain' (fun a b : Int × String => a.1 ≤ b.1) l →
      List.Chain' (fun a b : Int × String => a.1 ≤ b.1) (insertByValue c l) := by
  intro l
  induction l with
  | nil => intro _; simp [insertByValue]
  | cons d ds ih =>
    intro h
    simp only [insertByValue]
    by_cases hlt : c.1 < d.1
    · rw [if_pos hlt]
      exact List.Chain'.cons (le_of_lt hlt) h
    · rw [if_neg hlt]
      have hdc : d.1 ≤ c.1 := le_of_not_lt hlt
      have htail := ih (h.tail)
      refine List.chain'_cons'.2 ⟨?_, htail⟩
      intro b hb
      cases ds with
      | nil => simp [insertByValue] at hb; subst hb; exact hdc
      | cons e es =>
        simp only [insertByValue] at hb
        by_cases hce : c.1 < e.1
        · rw [if_pos hce] at hb
          simp at hb
          subst hb
          exact hdc
        · rw [if_neg hce] at hb
          simp at hb
          subst hb
          exact (List.chain'_cons.1 h).1

theorem sortByValue_chain (l : List (Int × String)) :
    List.Chain' (fun a b : Int × String => a.1 ≤ b.1) (sortByValue l) := by
  suffices h : ∀ acc, List.Chain' (fun a b : Int × String => a.1 ≤ b.1) acc →
      List.Chain' (fun a b : Int × String => a.1 ≤ b.1)
        (l.foldl (fun acc c => insertByValue c acc) acc) by
    exact h [] (by simp)
  induction l with
  | nil => intro acc hacc; simpa using hacc
  | cons c cs ih =>
    intro acc hacc
    simp only [List.foldl_cons]
    exact ih _ (insertByValue_chain c acc hacc)

theorem dedupFrom_head (c : Int × String) :
    ∀ rest, ∃ t, dedupFrom c rest = c :: t := by
  intro rest
  induction rest generalizing c with
  | nil => exact ⟨[], rfl⟩
  | cons d ds ih =>
    simp only [dedupFrom]
    split
    · exact ih c
    · exact ⟨dedupFrom d ds, rfl⟩

theorem dedupFrom_chain :
    ∀ (rest : List (Int × String)) (c : Int × String),
      List.Chain' (fun a b : Int × String => a.1 ≤ b.1) (c :: rest) →
      List.Chain' (fun a b : Int × String => a.1 < b.1) (dedupFrom c rest) := by
  intro rest
  induction rest with
  | nil => intro c _; simp [dedupFrom]
  | cons d ds ih =>
    intro c h
    have hcd : c.1 ≤ d.1 := (List.chain'_cons.1 h).1
    have hds : List.Chain' (fun a b : Int × String => a.1 ≤ b.1) (d :: ds) :=
      (List.chain'_cons.1 h).2
    simp only [dedupFrom]
    by_cases heq : c.1 = d.1
    · rw [if_pos heq]
      apply ih c
      refine List.chain'_cons'.2 ⟨?_, hds.tail⟩
      intro b hb
      cases ds with
      | nil => simp at hb
      | cons e es =>
        simp at hb
        subst hb
        rw [heq]
        exact (List.chain'_cons.1 hds).1
    · rw [if_neg heq]
      have hlt : c.1 < d.1 := lt_of_le_of_ne hcd heq
      have htail := ih d hds
      obtain ⟨t, ht⟩ := dedupFrom_head d ds
      refine List.chain'_cons'.2 ⟨?_, htail⟩
      intro b hb
      rw [ht] at hb
      simp at hb
      subst hb
      exact hlt

theorem dedupByValue_chain (l : List (Int × String))
    (h : List.Chain' (fun a b : Int × String => a.1 ≤ b.1) l) :
    List.Chain' (fun a b : Int × String => a.1 < b.1) (dedupByValue l) := by
  cases l with
  | nil => simp [dedupByValue]
  | cons c rest => exact dedupFrom_chain rest c h

theorem allCards_values_chain (hole comm : List Card) :
    List.Chain' (· < ·) ((allCardsOf hole comm).map Prod.fst) := by
  rw [List.chain'_map]
  exact dedupByValue_chain _ (sortByValue_chain _)

theorem allCards_values_pairwise (hole comm : List Card) :
    List.Pairwise (· < ·) ((allCardsOf hole comm).map Prod.fst) := by
  have h := allCards_values_chain hole comm
  exact List.chain'_iff_pairwise.1 h

theorem allCards_values_nodup (hole comm : List Card) :
    ((allCardsOf hole comm).map Prod.fst).Nodup :=
  (allCards_values_pairwise hole comm).imp (fun h => ne_of_lt h)

theorem valuesWithCount_nil_of_nodup {values : List Int} (hn : values.Nodup)
    {n : Nat} (h1 : n ≠ 1) : valuesWithCount values n = [] := by
  simp only [valuesWithCount]
  rw [List.filter_eq_nil_iff]
  intro v hv
  have hvmem : v ∈ values := List.mem_dedup.1 hv
  have hc : values.count v = 1 := List.count_eq_one_of_mem hn hvmem
  simp [hc]
  omega

/-- Because the rank values are deduplicated before the occurrence counts
are taken, every count is 1 and the quad/trips/pair branches are dead:
the evaluator reduces to the straight-flush/flush/straight/high-card
cascade. -/
theorem evalCore_no_groups (ac : List (Int × String))
    (hnd : (ac.map Prod.fst).Nodup) :
    evalCore ac =
      (let values : List Int := ac.map Prod.fst
       let is_flush : Bool := decide (5 ≤ maxSuitCount (ac.map Prod.snd))
       let st := straightInfo values
       if is_flush && st.1 then ⟨HandRank.StraightFlush, st.2, [], []⟩
       else if is_flush then
         ⟨HandRank.Flush, ((values.take 5).max?).getD 0, (values.take 5).drop 1,
          (values.filter (fun v => !(values.take 5).contains v)).take 2⟩
       else if st.1 then ⟨HandRank.Straight, st.2, [], []⟩
       else ⟨HandRank.HighCard, ((values.take 5).max?).getD 0, (values.take 5).drop 1, []⟩) := by
  have h4 := valuesWithCount_nil_of_nodup hnd (show (4:Nat) ≠ 1 by omega)
  have h3 := valuesWithCount_nil_of_nodup hnd (show (3:Nat) ≠ 1 by omega)
  have h2 := valuesWithCount_nil_of_nodup hnd (show (2:Nat) ≠ 1 by omega)
  simp only [evalCore, h4, h3, h2]
  simp

/-- C9 (amended): `evaluate_hand` imposes no minimum-size precondition
and signals no error; an input of fewer than five total cards always
comes back as a `HighCard` classification. -/
theorem C9_short_input_returns_high_card (hole comm : List Card)
    (h : (hole ++ comm).length < 5) :
    (evaluate_hand hole comm).rank = HandRank.HighCard := by
  have hlen : (allCardsOf hole comm).length < 5 := by
    have h1 := dedupByValue_length_le (sortByValue ((hole ++ comm).map (fun c => (c.value, c.suit))))
    have h2 := sortByValue_length ((hole ++ comm).map (fun c => (c.value, c.suit)))
    simp only [allCardsOf]
    rw [List.length_map] at *
    omega
  have hvlen : ((allCardsOf hole comm).map Prod.fst).length < 5 := by
    rw [List.length_map]; exact hlen
  have hslen : ((allCardsOf hole comm).map Prod.snd).length < 5 := by
    rw [List.length_map]; exact hlen
  have hf : maxSuitCount ((allCardsOf hole comm).map Prod.snd) < 5 :=
    lt_of_le_of_lt (maxSuitCount_le _) hslen
  have hs := straightInfo_short hvlen
  rw [show evaluate_hand hole comm = evalCore (allCardsOf hole comm) from rfl]
  rw [evalCore_no_groups _ (allCards_values_nodup hole comm)]
  simp only [hs]
  rw [if_neg (by simp [hf]), if_neg (by simp [hf])]
  simp

/-- Witness for C9's amended theorem at a one-card input. -/
theorem C9_short_input_witness :
    (evaluate_hand [mkCard 5 "♣"] []).rank = HandRank.HighCard :=
  C9_short_input_returns_high_card [mkCard 5 "♣"] [] (by decide)

/-- C9 counterexample to the claim as stated: evaluating two cards does
not fail with an error — it returns a concrete `EvaluatedHand`. -/
theorem C9_two_card_counterexample :
    evaluate_hand [mkCard 14 "♠", mkCard 13 "♦"] []
      = ⟨HandRank.HighCard, 14, [14], []⟩ := by
  decide

theorem compareSecs_neg : ∀ xs ys : List Int, compareSecs xs ys = -compareSecs ys xs := by
  intro xs
  induction xs with
  | nil => intro ys; cases ys <;> simp [compareSecs]
  | cons x xs ih =>
    intro ys
    cases ys with
    | nil => simp [compareSecs]
    | cons y ys' =>
      simp only [compareSecs]
      by_cases h : x = y
      · subst h
        simp [ih ys']
      · rw [if_pos h, if_pos (Ne.symm h)]
        omega

theorem compareSecs_ne_nil {xs ys : List Int} (h : compareSecs xs ys ≠ 0) :
    xs ≠ [] ∧ ys ≠ [] := by
  cases xs with
  | nil => simp [compareSecs] at h
  | cons x xs' =>
    cases ys with
    | nil => simp [compareSecs] at h
    | cons y ys' => exact ⟨by simp, by simp⟩

theorem getLast?_drop_one {l : List Int} (h : 2 ≤ l.length) :
    (l.drop 1).getLast? = l.getLast? := by
  match l, h with
  | x :: y :: t, _ => simp [List.getLast?_cons_cons]

theorem secs_eq_of_compare_zero {p : Int} :
    ∀ xs ys : List Int, xs.Pairwise (· < ·) → ys.Pairwise (· < ·) →
      xs.getLast? = some p → ys.getLast? = some p →
      compareSecs xs ys = 0 → xs = ys := by
  intro xs
  induction xs with
  | nil => intro ys _ _ hx; simp at hx
  | cons x xs' ih =>
    intro ys hpx hpy hlx hly hc
    cases ys with
    | nil => simp at hly
    | cons y ys' =>
      simp only [compareSecs] at hc
      by_cases hxy : x = y
      · subst hxy
        rw [if_neg (by simp)] at hc
        cases hxs' : xs' with
        | nil =>
          cases hys' : ys' with
          | nil => rfl
          | cons z zs =>
            subst hxs' hys'
            simp at hlx
            rw [List.getLast?_cons_cons] at hly
            have hpmem : p ∈ z :: zs := List.mem_of_mem_getLast? hly
            have hxp : x < p := (List.pairwise_cons.1 hpy).1 p hpmem
            omega
        | cons a as =>
          cases hys' : ys' with
          | nil =>
            subst hxs' hys'
            simp at hly
            rw [List.getLast?_cons_cons] at hlx
            have hpmem : p ∈ a :: as := List.mem_of_mem_getLast? hlx
            have hxp : x < p := (List.pairwise_cons.1 hpx).1 p hpmem
            omega
          | cons z zs =>
            subst hxs' hys'
            rw [List.getLast?_cons_cons] at hlx hly
            have := ih (z :: zs) (List.Pairwise.sublist (by simp) hpx)
              (List.Pairwise.sublist (by simp) hpy) hlx hly hc
            rw [this]
      · rw [if_pos hxy] at hc
        omega

theorem secs_lt_trans {p : Int} :
    ∀ xs ys zs : List Int,
      xs.getLast? = some p → ys.getLast? = some p → zs.getLast? = some p →
      compareSecs xs ys < 0 → compareSecs ys zs < 0 → compareSecs xs zs < 0 := by
  intro xs
  induction xs with
  | nil => intro ys zs hx _ _ h1 _; simp [compareSecs] at h1
  | cons x xs' ih =>
    intro ys zs hlx hly hlz h1 h2
    cases ys with
    | nil => simp [compareSecs] at h1
    | cons y ys' =>
      cases zs with
      | nil => simp [compareSecs] at h2
      | cons z zs' =>
        simp only [compareSecs] at h1 h2 ⊢
        by_cases hxy : x = y
        · rw [if_neg (by simp [hxy])] at h1
          by_cases hyz : y = z
          · rw [if_neg (by simp [hyz])] at h2
            rw [if_neg (by simp [hxy, hyz])]
            have hx' : xs' ≠ [] := (compareSecs_ne_nil (show compareSecs xs' ys' ≠ 0 by omega)).1
            have hy' : ys' ≠ [] := (compareSecs_ne_nil (show compareSecs xs' ys' ≠ 0 by omega)).2
            have hz' : zs' ≠ [] := (compareSecs_ne_nil (show compareSecs ys' zs' ≠ 0 by omega)).2
            obtain ⟨a, as, rfl⟩ := List.exists_cons_of_ne_nil hx'
            obtain ⟨b, bs, rfl⟩ := List.exists_cons_of_ne_nil hy'
            obtain ⟨c, cs, rfl⟩ := List.exists_cons_of_ne_nil hz'
            rw [List.getLast?_cons_cons] at hlx hly hlz
            exact ih _ _ hlx hly hlz h1 h2
          · rw [if_pos hyz] at h2
            rw [if_pos (by omega)]
            omega
        · rw [if_pos hxy] at h1
          by_cases hyz : y = z
          · rw [if_pos (by omega)]
            omega
          · rw [if_pos hyz] at h2
            rw [if_pos (by omega)]
            omega

theorem rankVal_injective : ∀ r s : HandRank, rankVal r = rankVal s → r = s := by
  intro r s
  cases r <;> cases s <;> simp_all [rankVal]

theorem compare_rank_ne {a b : EvaluatedHand} (h : a.rank ≠ b.rank) :
    compare_hands a b = rankVal a.rank - rankVal b.rank := by
  simp only [compare_hands]
  rw [if_pos h]

theorem compare_primary_ne {a b : EvaluatedHand} (hr : a.rank = b.rank)
    (hp : a.primary_value ≠ b.primary_value) :
    compare_hands a b = a.primary_value - b.primary_value := by
  simp only [compare_hands]
  rw [if_neg (by simp [hr]), if_pos hp]

theorem compare_secondary {a b : EvaluatedHand} (hr : a.rank = b.rank)
    (hp : a.primary_value = b.primary_value) :
    compare_hands a b = compareSecs a.secondary_values b.secondary_values := by
  simp only [compare_hands]
  rw [if_neg (by simp [hr]), if_neg (by simp [hp])]

theorem compare_zero_projections {a b : EvaluatedHand} (ha : HandOK a) (hb : HandOK b)
    (h : compare_hands a b = 0) :
    a.rank = b.rank ∧ a.primary_value = b.primary_value ∧
    a.secondary_values = b.secondary_values := by
  obtain ⟨hpa, hia, hla⟩ := ha
  obtain ⟨hpb, hib, hlb⟩ := hb
  by_cases hr : a.rank = b.rank
  · by_cases hp : a.primary_value = b.primary_value
    · rw [compare_secondary hr hp] at h
      refine ⟨hr, hp, ?_⟩
      by_cases hae : a.secondary_values = []
      · have hbe : b.secondary_values = [] := hib.2 (by rw [← hr]; exact hia.1 hae)
        rw [hae, hbe]
      · have hbe : b.secondary_values ≠ [] := by
          intro hbe
          exact hae (hia.2 (by rw [hr]; exact hib.1 hbe))
        have hla' := hla hae
        have hlb' := hlb hbe
        rw [hp] at hla'
        exact secs_eq_of_compare_zero _ _ hpa hpb hla' hlb' h
    · rw [compare_primary_ne hr hp] at h
      omega
  · rw [compare_rank_ne hr] at h
    exact absurd (rankVal_injective a.rank b.rank (by omega)) hr

theorem compare_lt_trans {a b c : EvaluatedHand} (ha : HandOK a) (hb : HandOK b) (hc : HandOK c)
    (h1 : compare_hands a b < 0) (h2 : compare_hands b c < 0) : compare_hands a c < 0 := by
  obtain ⟨hpa, hia, hla⟩ := ha
  obtain ⟨hpb, hib, hlb⟩ := hb
  obtain ⟨hpc, hic, hlc⟩ := hc
  by_cases hab : a.rank = b.rank
  · by_cases hbc : b.rank = c.rank
    · have hac : a.rank = c.rank := hab.trans hbc
      by_cases pab : a.primary_value = b.primary_value
      · by_cases pbc : b.primary_value = c.primary_value
        · have pac : a.primary_value = c.primary_value := pab.trans pbc
          rw [compare_secondary hab pab] at h1
          rw [compare_secondary hbc pbc] at h2
          rw [compare_secondary hac pac]
          have hae : a.secondary_values ≠ [] :=
            (compareSecs_ne_nil (show compareSecs a.secondary_values b.secondary_values ≠ 0 by omega)).1
          have hbe : b.secondary_values ≠ [] :=
            (compareSecs_ne_nil (show compareSecs a.secondary_values b.secondary_values ≠ 0 by omega)).2
          have hce : c.secondary_values ≠ [] :=
            (compareSecs_ne_nil (show compareSecs b.secondary_values c.secondary_values ≠ 0 by omega)).2
          have hla' := hla hae
          have hlb' := hlb hbe
          have hlc' := hlc hce
          rw [pab] at hla'
          rw [pbc] at hlb'
          exact secs_lt_trans _ _ _ (by rw [hla', pbc]) (by rw [hlb']) (by rw [hlc']) h1 h2
        · rw [compare_primary_ne hbc pbc] at h2
          have pac : a.primary_value ≠ c.primary_value := by rw [pab]; omega
          rw [compare_primary_ne hac pac]
          omega
      · rw [compare_primary_ne hab pab] at h1
        by_cases pbc : b.primary_value = c.primary_value
        · have pac : a.primary_value ≠ c.primary_value := by rw [← pbc]; omega
          rw [compare_primary_ne hac pac]
          omega
        · rw [compare_primary_ne hbc pbc] at h2
          have pac : a.primary_value ≠ c.primary_value := by omega
          rw [compare_primary_ne hac pac]
          omega
    · rw [compare_rank_ne hbc] at h2
      have hac : a.rank ≠ c.rank := by
        intro he
        exact hbc (by rw [← hab, he])
      rw [compare_rank_ne hac, hab]
      omega
  · rw [compare_rank_ne hab] at h1
    by_cases hbc : b.rank = c.rank
    · have hac : a.rank ≠ c.rank := by
        intro he
        rw [he, hbc] at h1
        omega
      rw [compare_rank_ne hac]
      rw [hbc] at h1
      omega
    · rw [compare_rank_ne hbc] at h2
      have hac : a.rank ≠ c.rank := by
        intro he
        rw [he] at h1
        omega
      rw [compare_rank_ne hac]
      omega

theorem insertByValue_mem {x c : Int × String} :
    ∀ l, x ∈ insertByValue c l ↔ x = c ∨ x ∈ l := by
  intro l
  induction l with
  | nil => simp [insertByValue]
  | cons d ds ih =>
    simp only [insertByValue]
    by_cases h : c.1 < d.1
    · rw [if_pos h]
      simp
    · rw [if_neg h]
      simp only [List.mem_cons, ih]
      tauto

theorem sortByValue_mem {x : Int × String} (l : List (Int × String)) :
    x ∈ sortByValue l ↔ x ∈ l := by
  suffices h : ∀ acc, x ∈ l.foldl (fun acc c => insertByValue c acc) acc ↔ x ∈ acc ∨ x ∈ l by
    simpa using h []
  induction l with
  | nil => intro acc; simp
  | cons c cs ih =>
    intro acc
    simp only [List.foldl_cons]
    rw [ih]
    rw [insertByValue_mem]
    simp only [List.mem_cons]
    tauto

theorem dedupFrom_fst_cover :
    ∀ (rest : List (Int × String)) (c p : Int × String), p ∈ c :: rest →
      ∃ q, q ∈ dedupFrom c rest ∧ q.1 = p.1 := by
  intro rest
  induction rest with
  | nil =>
    intro c p hp
    simp at hp
    exact ⟨c, by simp [dedupFrom], by rw [hp]⟩
  | cons d ds ih =>
    intro c p hp
    simp only [dedupFrom]
    by_cases h : c.1 = d.1
    · rw [if_pos h]
      rcases List.mem_cons.1 hp with heq | hp'
      · exact ih c p (by simp [heq])
      · rcases List.mem_cons.1 hp' with heq | hp''
        · obtain ⟨q, hq, hq1⟩ := ih c c (by simp)
          refine ⟨q, hq, ?_⟩
          rw [hq1, h, heq]
        · exact ih c p (by simp [hp''])
    · rw [if_neg h]
      rcases List.mem_cons.1 hp with heq | hp'
      · exact ⟨c, by simp, by rw [heq]⟩
      · obtain ⟨q, hq, hq1⟩ := ih d p hp'
        exact ⟨q, by simp [hq], hq1⟩

theorem foldl_max_sorted :
    ∀ (as : List Int) (a : Int), List.Chain' (· ≤ ·) (a :: as) →
      some (as.foldl max a) = (a :: as).getLast? := by
  intro as
  induction as with
  | nil => intro a _; simp
  | cons b bs ih =>
    intro a h
    have hab : a ≤ b := (List.chain'_cons.1 h).1
    have htl : List.Chain' (· ≤ ·) (b :: bs) := (List.chain'_cons.1 h).2
    simp only [List.foldl_cons]
    rw [max_eq_right hab]
    rw [List.getLast?_cons_cons]
    exact ih b htl

theorem max?_eq_getLast? {l : List Int} (h : List.Chain' (· ≤ ·) l) :
    l.max? = l.getLast? := by
  cases l with
  | nil => rfl
  | cons a as => exact foldl_max_sorted as a h

theorem topfive_props {values : List Int} (hp : values.Pairwise (· < ·))
    (h2 : 2 ≤ values.length) :
    ((values.take 5).drop 1).Pairwise (· < ·) ∧ (values.take 5).drop 1 ≠ [] ∧
    ((values.take 5).drop 1).getLast? = some (((values.take 5).max?).getD 0) := by
  have ht5p : (values.take 5).Pairwise (· < ·) :=
    hp.sublist (List.take_sublist 5 values)
  have ht5len : 2 ≤ (values.take 5).length := by
    rw [List.length_take]
    omega
  have hchain : List.Chain' (· ≤ ·) (values.take 5) :=
    (List.chain'_iff_pairwise.2 ht5p).imp (fun _ _ hab => le_of_lt hab)
  have hmax : (values.take 5).max? = (values.take 5).getLast? := max?_eq_getLast? hchain
  obtain ⟨x, y, t, hxyt⟩ : ∃ x y t, values.take 5 = x :: y :: t := by
    match hm : values.take 5, ht5len with
    | x :: y :: t, _ => exact ⟨x, y, t, rfl⟩
  rw [hxyt]
  rw [hxyt] at ht5p hmax
  refine ⟨ht5p.sublist (by simp), by simp, ?_⟩
  simp only [List.drop_one, List.tail_cons]
  rw [List.getLast?_cons_cons] at hmax
  rw [hmax]
  cases hgl : (y :: t).getLast? with
  | none => simp at hgl
  | some v => simp

theorem nodup_suits_le_four {l : List String} (hnd : l.Nodup)
    (hsub : ∀ s ∈ l, s ∈ deck_suits) : l.length ≤ 4 := by
  have h1 : l.toFinset.card = l.length := List.toFinset_card_of_nodup hnd
  have h2 : l.toFinset ⊆ deck_suits.toFinset := by
    intro s hs
    rw [List.mem_toFinset] at hs
    rw [List.mem_toFinset]
    exact hsub s hs
  have h3 : l.toFinset.card ≤ deck_suits.toFinset.card := Finset.card_le_card h2
  have h4 : deck_suits.toFinset.card = 4 := by decide
  omega

theorem allCards_len_ge_two (hole comm : List Card) (hv : validSeven hole comm) :
    2 ≤ (allCardsOf hole comm).length := by
  obtain ⟨hlen7, hnodup, hvalid⟩ := hv
  set cs := (hole ++ comm).map (fun c => (c.value, c.suit)) with hcs
  have hcslen : cs.length = 7 := by rw [hcs, List.length_map, hlen7]
  have hsortlen : (sortByValue cs).length = 7 := by rw [sortByValue_length, hcslen]
  match hac : allCardsOf hole comm with
  | [] =>
    exfalso
    have : dedupByValue (sortByValue cs) = [] := hac
    cases hs : sortByValue cs with
    | nil => rw [hs] at hsortlen; simp at hsortlen
    | cons c rest =>
      rw [hs] at this
      simp only [dedupByValue] at this
      obtain ⟨t, ht⟩ := dedupFrom_head c rest
      rw [ht] at this
      simp at this
  | [x] =>
    exfalso
    have hone : dedupByValue (sortByValue cs) = [x] := hac
    have hallx : ∀ p ∈ cs, p.1 = x.1 := by
      intro p hpcs
      have hpsort : p ∈ sortByValue cs := (sortByValue_mem cs).2 hpcs
      cases hs : sortByValue cs with
      | nil => rw [hs] at hpsort; simp at hpsort
      | cons c rest =>
        rw [hs] at hpsort hone
        simp only [dedupByValue] at hone
        obtain ⟨q, hq, hq1⟩ := dedupFrom_fst_cover rest c p hpsort
        rw [hone] at hq
        simp at hq
        rw [← hq1, hq]
    have hsnd : (cs.map Prod.snd).Nodup := by
      show (cs.map Prod.snd).Pairwise (· ≠ ·)
      rw [List.pairwise_map]
      refine List.Pairwise.imp_of_mem ?_ hnodup
      intro p q hpmem hqmem hpq hsndeq
      apply hpq
      have h1 := hallx p hpmem
      have h2 := hallx q hqmem
      exact Prod.ext (by rw [h1, h2]) hsndeq
    have hsub : ∀ s ∈ cs.map Prod.snd, s ∈ deck_suits := by
      intro s hs
      obtain ⟨p, hpmem, rfl⟩ := List.mem_map.1 hs
      obtain ⟨c, hcmem, rfl⟩ := List.mem_map.1 hpmem
      exact (hvalid c hcmem).2.2
    have hle := nodup_suits_le_four hsnd hsub
    rw [List.length_map, hcslen] at hle
    omega
  | x :: y :: rest => simp

theorem evaluate_hand_handok (hole comm : List Card) (hv : validSeven hole comm) :
    HandOK (evaluate_hand hole comm) := by
  have hnd := allCards_values_nodup hole comm
  have hpw := allCards_values_pairwise hole comm
  have hL2 := allCards_len_ge_two hole comm hv
  have hvlen : 2 ≤ ((allCardsOf hole comm).map Prod.fst).length := by
    rw [List.length_map]
    exact hL2
  rw [show evaluate_hand hole comm = evalCore (allCardsOf hole comm) from rfl,
      evalCore_no_groups _ hnd]
  set ac := allCardsOf hole comm with hacdef
  set values := ac.map Prod.fst with hvalues
  obtain ⟨hd1, hd2, hd3⟩ := topfive_props hpw hvlen
  rcases hfb : (decide (5 ≤ maxSuitCount (ac.map Prod.snd))) with hf | hf <;>
    rcases hsb : (straightInfo values).1 with hs | hs
  · -- no flush, no straight: HighCard
    simp only [hfb, hsb, Bool.false_and, Bool.false_eq_true, if_false]
    exact ⟨hd1, by simpa using hd2, fun _ => hd3⟩
  · -- no flush, straight
    simp only [hfb, hsb, Bool.false_and, Bool.false_eq_true, if_false, if_true]
    exact ⟨by simp, by simp, by simp⟩
  · -- flush, no straight
    simp only [hfb, hsb, Bool.true_and, Bool.false_eq_true, if_false, if_true]
    exact ⟨hd1, by simpa using hd2, fun _ => hd3⟩
  · -- flush and straight: StraightFlush
    simp only [hfb, hsb, Bool.true_and, if_true]
    exact ⟨by simp, by simp, by simp⟩

theorem compareSecs_self : ∀ xs : List Int, compareSecs xs xs = 0 := by
  intro xs
  induction xs with
  | nil => rfl
  | cons x xs ih => simp [compareSecs, ih]

/-- C8: `compare_hands` is exactly antisymmetric under swapping, orders
by category first (higher `rankVal` wins regardless of suits), then by
primary value, then by the first mismatching secondary position; and on
hands produced by `evaluate_hand` from seven distinct real cards (all of
which satisfy the `HandOK` shape) the strict order and the tie relation
are both transitive, i.e. it is a strict weak ordering there. -/
theorem C8_compare_strict_weak_order :
    (∀ a b : EvaluatedHand, compare_hands a b = -compare_hands b a) ∧
    (∀ a b : EvaluatedHand, rankVal b.rank < rankVal a.rank → 0 < compare_hands a b) ∧
    (∀ a b : EvaluatedHand, a.rank ≠ b.rank →
      compare_hands a b = rankVal a.rank - rankVal b.rank) ∧
    (∀ a b : EvaluatedHand, a.rank = b.rank → a.primary_value ≠ b.primary_value →
      compare_hands a b = a.primary_value - b.primary_value) ∧
    (∀ a b : EvaluatedHand, a.rank = b.rank → a.primary_value = b.primary_value →
      compare_hands a b = compareSecs a.secondary_values b.secondary_values) ∧
    (∀ a b c : EvaluatedHand, HandOK a → HandOK b → HandOK c →
      compare_hands a b < 0 → compare_hands b c < 0 → compare_hands a c < 0) ∧
    (∀ a b c : EvaluatedHand, HandOK a → HandOK b → HandOK c →
      compare_hands a b = 0 → compare_hands b c = 0 → compare_hands a c = 0) ∧
    (∀ hole comm : List Card, validSeven hole comm → HandOK (evaluate_hand hole comm)) := by
  refine ⟨?_, ?_, fun a b h => compare_rank_ne h,
    fun a b h1 h2 => compare_primary_ne h1 h2,
    fun a b h1 h2 => compare_secondary h1 h2,
    fun _ _ _ ha hb hc => compare_lt_trans ha hb hc, ?_, evaluate_hand_handok⟩
  · intro a b
    by_cases hr : a.rank = b.rank
    · by_cases hp : a.primary_value = b.primary_value
      · rw [compare_secondary hr hp, compare_secondary hr.symm hp.symm, compareSecs_neg]
      · rw [compare_primary_ne hr hp, compare_primary_ne hr.symm (Ne.symm hp)]
        ring
    · rw [compare_rank_ne hr, compare_rank_ne (Ne.symm hr)]
      ring
  · intro a b h
    have hr : a.rank ≠ b.rank := by
      intro he
      rw [he] at h
      omega
    rw [compare_rank_ne hr]
    omega
  · intro a b c ha hb hc h1 h2
    obtain ⟨e1, e2, e3⟩ := compare_zero_projections ha hb h1
    obtain ⟨f1, f2, f3⟩ := compare_zero_projections hb hc h2
    rw [compare_secondary (e1.trans f1) (e2.trans f2), e3, f3, compareSecs_self]

/-- Witness for C8: transitivity applied to three concrete `HandOK`
hands. -/
theorem C8_transitivity_witness :
    compare_hands ⟨HandRank.HighCard, 7, [7], []⟩ ⟨HandRank.HighCard, 11, [11], []⟩ < 0 :=
  C8_compare_strict_weak_order.2.2.2.2.2.1
    ⟨HandRank.HighCard, 7, [7], []⟩ ⟨HandRank.HighCard, 9, [9], []⟩
    ⟨HandRank.HighCard, 11, [11], []⟩
    (by refine ⟨by decide, by decide, fun _ => by decide⟩)
    (by refine ⟨by decide, by decide, fun _ => by decide⟩)
    (by refine ⟨by decide, by decide, fun _ => by decide⟩)
    (by decide) (by decide)

/-- A successful `player_action` preserves the two-player shape, keeps
`pot + chips` constant, keeps every bet at or below `current_bet`, keeps
`current_bet` non-negative and the turn index in range, and never
increases either stack. -/
theorem inv_action {g g' : PokerGame} {act : String} {amt : Option Int}
    (h : player_action g act amt = (true, g'))
    {pa pb : Player} (hp : g.players = [pa, pb]) (hcp : g.current_player < 2)
    (hba : pa.bet ≤ g.current_bet) (hbb : pb.bet ≤ g.current_bet)
    (hcb : 0 ≤ g.current_bet) :
    ∃ qa qb, g'.players = [qa, qb] ∧
      g'.pot + qa.chips + qb.chips = g.pot + pa.chips + pb.chips ∧
      qa.bet ≤ g'.current_bet ∧ qb.bet ≤ g'.current_bet ∧ 0 ≤ g'.current_bet ∧
      g'.current_player < 2 ∧ qa.chips ≤ pa.chips ∧ qb.chips ≤ pb.chips := by
  have hlen : g.players.length = 2 := by rw [hp]; rfl
  have hcp2 : g.current_player = 0 ∨ g.current_player = 1 := by omega
  have hmax1 : g.current_bet + MIN_RAISE ≤ (amt.getD 0) ⊔ (g.current_bet + MIN_RAISE) :=
    le_max_right _ _
  rcases hcp2 with h0 | h0 <;>
    simp only [player_action, getPlayer, updatePlayer, move_to_next_player, get_next_player,
      hp, h0, hlen, List.getD_cons_zero, List.getD_cons_succ, List.set,
      List.length_cons, List.length_nil] at h <;>
    split_ifs at h with h1 h2 h3 h4 h5 h6 h7 h8 h9 h10 <;>
    simp only [Prod.mk.injEq, true_and, false_and, Bool.false_eq_true, and_false,
      false_implies, reduceCtorEq] at h <;>
    subst h <;>
    refine ⟨_, _, rfl, ?_, ?_, ?_, ?_, ?_, ?_, ?_⟩ <;>
    simp only [MIN_RAISE] at * <;>
    first
      | omega
      | (simp only [List.length_cons, List.length_nil]; omega)

theorem map_set_getD {α β : Type} (proj : α → β) (f : α → α)
    (h : ∀ p, proj (f p) = proj p) :
    ∀ (l : List α) (i : Nat) (d : α),
      (l.set i (f (l.getD i d))).map proj = l.map proj := by
  intro l
  induction l with
  | nil => intro i d; simp
  | cons x xs ih =>
    intro i d
    cases i with
    | zero => simp [h]
    | succ j =>
      simp only [List.set_cons_succ, List.getD_cons_succ, List.map_cons, ih j d]

theorem deal_one_to_money (g : PokerGame) (i : Nat) :
    (deal_one_to g i).pot = g.pot ∧ (deal_one_to g i).current_bet = g.current_bet ∧
    (deal_one_to g i).dealer_position = g.dealer_position ∧
    (deal_one_to g i).players.map (fun p => (p.chips, p.bet))
      = g.players.map (fun p => (p.chips, p.bet)) ∧
    (deal_one_to g i).players.length = g.players.length := by
  cases hd : g.deck with
  | nil => simp [deal_one_to, hd]
  | cons c rest =>
    simp only [deal_one_to, hd, updatePlayer, getPlayer]
    refine ⟨trivial, trivial, trivial, ?_, ?_⟩
    · exact map_set_getD (fun p => (p.chips, p.bet))
        (fun p => { p with cards := p.cards ++ [c] }) (fun p => rfl) g.players i default_player
    · simp

theorem deal_hole_money (g : PokerGame) :
    (deal_hole_cards g).pot = g.pot ∧ (deal_hole_cards g).current_bet = g.current_bet ∧
    (deal_hole_cards g).dealer_position = g.dealer_position ∧
    (deal_hole_cards g).players.map (fun p => (p.chips, p.bet))
      = g.players.map (fun p => (p.chips, p.bet)) ∧
    (deal_hole_cards g).players.length = g.players.length := by
  unfold deal_hole_cards
  generalize List.range g.players.length = is
  induction is generalizing g with
  | nil => exact ⟨rfl, rfl, rfl, rfl, rfl⟩
  | cons i is ih =>
    simp only [List.foldl_cons]
    obtain ⟨a1, a2, a3, a4, a5⟩ := deal_one_to_money g i
    obtain ⟨b1, b2, b3, b4, b5⟩ := deal_one_to_money (deal_one_to g i) i
    obtain ⟨c1, c2, c3, c4, c5⟩ := ih (deal_one_to (deal_one_to g i) i)
    exact ⟨c1.trans (b1.trans a1), c2.trans (b2.trans a2), c3.trans (b3.trans a3),
      c4.trans (b4.trans a4), c5.trans (b5.trans a5)⟩

theorem inv_advance {g : PokerGame} (hnr : g.phase ≠ GamePhase.River)
    (hns : g.phase ≠ GamePhase.Showdown)
    {pa pb : Player} (hp : g.players = [pa, pb]) :
    ∃ qa qb, (next_phase g).players = [qa, qb] ∧
      (next_phase g).pot = g.pot ∧ qa.chips = pa.chips ∧ qb.chips = pb.chips ∧
      qa.bet ≤ (next_phase g).current_bet ∧ qb.bet ≤ (next_phase g).current_bet ∧
      0 ≤ (next_phase g).current_bet ∧ (next_phase g).current_player < 2 := by
  have key : ∀ (ph : GamePhase) (n : Nat),
      ∃ qa qb,
        (finish_phase_transition { deal_community_cards g n with phase := ph }).players
          = [qa, qb] ∧
        (finish_phase_transition { deal_community_cards g n with phase := ph }).pot = g.pot ∧
        qa.chips = pa.chips ∧ qb.chips = pb.chips ∧
        qa.bet ≤ (finish_phase_transition { deal_community_cards g n with phase := ph }).current_bet ∧
        qb.bet ≤ (finish_phase_transition { deal_community_cards g n with phase := ph }).current_bet ∧
        0 ≤ (finish_phase_transition { deal_community_cards g n with phase := ph }).current_bet ∧
        (finish_phase_transition { deal_community_cards g n with phase := ph }).current_player < 2 := by
    intro ph n
    refine ⟨{ pa with bet := 0 }, { pb with bet := 0 }, ?_, ?_, rfl, rfl, ?_, ?_, ?_, ?_⟩
    · simp only [finish_phase_transition, dcc_players, hp]
      rfl
    · simp only [finish_phase_transition, dcc_pot]
    · simp [finish_phase_transition]
    · simp [finish_phase_transition]
    · simp [finish_phase_transition]
    · simp only [finish_phase_transition, dcc_players, hp, List.length_map,
        List.length_cons, List.length_nil]
      omega
  cases hph : g.phase with
  | PreFlop => simp only [next_phase, hph]; exact key GamePhase.Flop 3
  | Flop => simp only [next_phase, hph]; exact key GamePhase.Turn 1
  | Turn => simp only [next_phase, hph]; exact key GamePhase.River 1
  | River => exact absurd hph hnr
  | Showdown => exact absurd hph hns

theorem post_blinds_pot (g : PokerGame) :
    (post_blinds g).pot = g.pot + g.small_blind + g.big_blind := rfl

theorem post_blinds_cb (g : PokerGame) :
    (post_blinds g).current_bet = g.big_blind := rfl

theorem inv_start {g0 : PokerGame} (d : List Card) {a b : Player}
    (hp : g0.players = [a, b])
    (hsb : g0.small_blind = SMALL_BLIND) (hbb : g0.big_blind = BIG_BLIND) :
    ∃ qa qb, (start_hand d g0).players = [qa, qb] ∧
      (start_hand d g0).pot + qa.chips + qb.chips = a.chips + b.chips ∧
      qa.bet ≤ (start_hand d g0).current_bet ∧ qb.bet ≤ (start_hand d g0).current_bet ∧
      0 ≤ (start_hand d g0).current_bet ∧ (start_hand d g0).current_player < 2 := by
  simp only [start_hand]
  set G1 : PokerGame :=
    { g0 with deck := d, community_cards := [], pot := 0, current_bet := 0,
              phase := GamePhase.PreFlop, hand_complete := false,
              showdown_done := false, game_over := false,
              players := g0.players.map (fun p =>
                { p with bet := 0, cards := [], last_action := "" }) } with hG1
  have hG1p : G1.players = [{ a with bet := 0, cards := [], last_action := "" },
                            { b with bet := 0, cards := [], last_action := "" }] := by
    rw [hG1]
    simp [hp]
  have hG1len : G1.players.length = 2 := by rw [hG1p]; rfl
  obtain ⟨f1, f2, f3, f4, f5⟩ := deal_hole_money (post_blinds G1)
  have hPlen : (post_blinds G1).players.length = 2 := by
    simp [post_blinds, updatePlayer, hG1len]
  have hflen : (deal_hole_cards (post_blinds G1)).players.length = 2 := by
    rw [f5, hPlen]
  obtain ⟨qa, qb, hqab⟩ : ∃ qa qb, (deal_hole_cards (post_blinds G1)).players = [qa, qb] := by
    match hm : (deal_hole_cards (post_blinds G1)).players, hflen with
    | [qa, qb], _ => exact ⟨qa, qb, rfl⟩
  have hfmap := f4
  rw [hqab] at hfmap
  have hparity : (g0.dealer_position + 1) % 2 = 1 ∨ (g0.dealer_position + 1) % 2 = 0 := by
    omega
  rcases hparity with hpar | hpar
  · have hsbi : (G1.dealer_position + 1) % G1.players.length = 1 := by
      rw [hG1len]
      exact hpar
    have hbbi : (G1.dealer_position + 2) % G1.players.length = 0 := by
      rw [hG1len]
      have hG1d : G1.dealer_position = g0.dealer_position := rfl
      rw [hG1d]
      omega
    have hPp : (post_blinds G1).players.map (fun p => (p.chips, p.bet))
        = [(a.chips - G1.big_blind, G1.big_blind), (b.chips - G1.small_blind, G1.small_blind)] := by
      simp only [post_blinds, updatePlayer, getPlayer, hsbi, hbbi, hG1p]
      simp [hp]
    rw [hPp] at hfmap
    simp only [List.map_cons, List.map_nil, List.cons.injEq, and_true, Prod.mk.injEq] at hfmap
    obtain ⟨⟨hqa1, hqa2⟩, hqb1, hqb2⟩ := hfmap
    refine ⟨qa, qb, by rw [hqab], ?_, ?_, ?_, ?_, ?_⟩
    · show (deal_hole_cards (post_blinds G1)).pot + qa.chips + qb.chips = a.chips + b.chips
      rw [f1, post_blinds_pot, hqa1, hqb1]
      have : G1.pot = 0 := rfl
      rw [this]
      ring
    · show qa.bet ≤ (deal_hole_cards (post_blinds G1)).current_bet
      rw [f2, post_blinds_cb, hqa2]
    · show qb.bet ≤ (deal_hole_cards (post_blinds G1)).current_bet
      rw [f2, post_blinds_cb, hqb2]
      have h1 : G1.small_blind = SMALL_BLIND := hsb
      have h2 : G1.big_blind = BIG_BLIND := hbb
      rw [h1, h2]
      simp [SMALL_BLIND, BIG_BLIND]
    · show (0:Int) ≤ (deal_hole_cards (post_blinds G1)).current_bet
      rw [f2, post_blinds_cb]
      have h2 : G1.big_blind = BIG_BLIND := hbb
      rw [h2]
      simp [BIG_BLIND]
    · show ((deal_hole_cards (post_blinds G1)).dealer_position + 3)
          % (deal_hole_cards (post_blinds G1)).players.length < 2
      rw [hflen]
      omega
  · have hsbi : (G1.dealer_position + 1) % G1.players.length = 0 := by
      rw [hG1len]
      exact hpar
    have hbbi : (G1.dealer_position + 2) % G1.players.length = 1 := by
      rw [hG1len]
      have hG1d : G1.dealer_position = g0.dealer_position := rfl
      rw [hG1d]
      omega
    have hPp : (post_blinds G1).players.map (fun p => (p.chips, p.bet))
        = [(a.chips - G1.small_blind, G1.small_blind), (b.chips - G1.big_blind, G1.big_blind)] := by
      simp only [post_blinds, updatePlayer, getPlayer, hsbi, hbbi, hG1p]
      simp [hp]
    rw [hPp] at hfmap
    simp only [List.map_cons, List.map_nil, List.cons.injEq, and_true, Prod.mk.injEq] at hfmap
    obtain ⟨⟨hqa1, hqa2⟩, hqb1, hqb2⟩ := hfmap
    refine ⟨qa, qb, by rw [hqab], ?_, ?_, ?_, ?_, ?_⟩
    · show (deal_hole_cards (post_blinds G1)).pot + qa.chips + qb.chips = a.chips + b.chips
      rw [f1, post_blinds_pot, hqa1, hqb1]
      have hz : G1.pot = 0 := rfl
      rw [hz]
      ring
    · show qa.bet ≤ (deal_hole_cards (post_blinds G1)).current_bet
      rw [f2, post_blinds_cb, hqa2]
      have h1 : G1.small_blind = SMALL_BLIND := hsb
      have h2 : G1.big_blind = BIG_BLIND := hbb
      rw [h1, h2]
      simp [SMALL_BLIND, BIG_BLIND]
    · show qb.bet ≤ (deal_hole_cards (post_blinds G1)).current_bet
      rw [f2, post_blinds_cb, hqb2]
    · show (0:Int) ≤ (deal_hole_cards (post_blinds G1)).current_bet
      rw [f2, post_blinds_cb]
      have h2 : G1.big_blind = BIG_BLIND := hbb
      rw [h2]
      simp [BIG_BLIND]
    · show ((deal_hole_cards (post_blinds G1)).dealer_position + 3)
          % (deal_hole_cards (post_blinds G1)).players.length < 2
      rw [hflen]
      omega

/-- C7: on every reachable pre-payout state of a hand started from
stacks totalling `2 * STARTING_CHIPS`, the pot equals exactly the chips
removed from the two stacks; moreover no successful action ever increases
a stack and no pre-river phase advance touches the stacks, so chips only
come back at payout. -/
theorem C7_pot_equals_chips_removed :
    ∀ g, Reach g →
      (g.pot = 2 * STARTING_CHIPS - ((getPlayer g 0).chips + (getPlayer g 1).chips)) ∧
      (∀ (a : String) (amt : Option Int) (g' : PokerGame),
        player_action g a amt = (true, g') →
        (getPlayer g' 0).chips ≤ (getPlayer g 0).chips ∧
        (getPlayer g' 1).chips ≤ (getPlayer g 1).chips) ∧
      (g.phase ≠ GamePhase.River → g.phase ≠ GamePhase.Showdown →
        (getPlayer (next_phase g) 0).chips = (getPlayer g 0).chips ∧
        (getPlayer (next_phase g) 1).chips = (getPlayer g 1).chips) := by
  have hinv : ∀ g, Reach g → ∃ qa qb, g.players = [qa, qb] ∧
      g.pot + qa.chips + qb.chips = 2 * STARTING_CHIPS ∧
      qa.bet ≤ g.current_bet ∧ qb.bet ≤ g.current_bet ∧ 0 ≤ g.current_bet ∧
      g.current_player < 2 := by
    intro g hr
    induction hr with
    | start g0 dd a b hp hsum hsb hbb =>
      obtain ⟨qa, qb, h1, h2, h3, h4, h5, h6⟩ := inv_start dd hp hsb hbb
      exact ⟨qa, qb, h1, by omega, h3, h4, h5, h6⟩
    | act g g' act amt hr hpa ih =>
      obtain ⟨pa, pb, hp, hsum, hba, hbb2, hcb, hcp⟩ := ih
      obtain ⟨qa, qb, h1, h2, h3, h4, h5, h6, h7, h8⟩ := inv_action hpa hp hcp hba hbb2 hcb
      exact ⟨qa, qb, h1, by omega, h3, h4, h5, h6⟩
    | advance g hr hm hnr hns ih =>
      obtain ⟨pa, pb, hp, hsum, b1, b2, b3, b4⟩ := ih
      obtain ⟨qa, qb, h1, hpot, hca, hcb2, k1, k2, k3, k4⟩ := inv_advance hnr hns hp
      refine ⟨qa, qb, h1, ?_, k1, k2, k3, k4⟩
      rw [hpot, hca, hcb2]
      omega
  intro g hr
  obtain ⟨qa, qb, hp, hsum, hba, hbb2, hcb, hcp⟩ := hinv g hr
  refine ⟨?_, ?_, ?_⟩
  · simp only [getPlayer, hp, List.getD_cons_zero, List.getD_cons_succ]
    omega
  · intro a amt g' hpa
    obtain ⟨ra, rb, h1, h2, h3, h4, h5, h6, h7, h8⟩ := inv_action hpa hp hcp hba hbb2 hcb
    simp only [getPlayer, hp, h1, List.getD_cons_zero, List.getD_cons_succ]
    exact ⟨h7, h8⟩
  · intro hnr hns
    obtain ⟨ra, rb, h1, hpot, hca, hcb2, k1, k2, k3, k4⟩ := inv_advance hnr hns hp
    simp only [getPlayer, hp, h1, List.getD_cons_zero, List.getD_cons_succ]
    exact ⟨hca, hcb2⟩

/-- Witness for C7: the state right after `start_hand` from the initial
game (blinds posted) satisfies the conservation equation. -/
theorem C7_chip_conservation_witness :
    (start_hand [] PokerGame.new).pot = 2 * STARTING_CHIPS -
      (((getPlayer (start_hand [] PokerGame.new) 0)).chips
        + ((getPlayer (start_hand [] PokerGame.new) 1)).chips) :=
  (C7_pot_equals_chips_removed _ (Reach.start PokerGame.new [] (Player.new "You" true) (Player.new "Bot" false)
    rfl (by decide) rfl rfl)).1
